import Mathlib

/-!
Verification of the response-parsing and file-materialization pipeline of the
icdapp VS Code extension (`backendBuilder.ts`, `frontendBuilder.ts`,
`extension.ts`).

Program strings are modelled as `List Char`.  The JavaScript string
operations the source relies on (global replacement of fixed two-character
patterns, first-occurrence search, `trim`, `startsWith` / `endsWith` /
`includes`, fenced-code-block scanning with a fixed ordered list of language
tags) are given executable definitions, and the pipeline functions
`cleanGeneratedCode`, `removeMarkdownCodeBlocks`, `extractMarkdownSections`,
`extractFilesFromResponse`, `parseAIResponse` together with their frontend
counterparts are translated from the source on top of them.
-/

namespace Icd

/-- Strings of the modelled program. -/
abbrev Str := List Char

/-- Character list of a Lean string literal. -/
def chars (s : String) : Str := s.data

/-- JavaScript whitespace: the character class `\s`, trimmed by
`String.prototype.trim`. -/
def wsChar (c : Char) : Bool :=
  c = ' ' || c = '\t' || c = '\n' || c = '\x0b' || c = '\x0c' || c = '\r' ||
  c = '\u00A0' || c = '\u1680' || ('\u2000' ≤ c && c ≤ '\u200A') ||
  c = '\u2028' || c = '\u2029' || c = '\u202F' || c = '\u205F' ||
  c = '\u3000' || c = '\uFEFF'

/-- Global left-to-right replacement of the two-character pattern `[a, b]`
by the single character `c`: JS `s.replace(/ab/g, "c")` for a fixed
two-character pattern. -/
def repl2 (a b c : Char) : Str → Str
  | [] => []
  | [x] => [x]
  | x :: y :: t =>
    if x = a ∧ y = b then c :: repl2 a b c t else x :: repl2 a b c (y :: t)

/-- Does the two-character pattern `[a, b]` occur in the string?
JS `s.includes("ab")`. -/
def has2 (a b : Char) : Str → Bool
  | [] => false
  | [_] => false
  | x :: y :: t => if x = a ∧ y = b then true else has2 a b (y :: t)

/-- Split a string at the first occurrence of `pat`:
`splitFirst pat s = some (pre, rest)` means `s = pre ++ pat ++ rest` and the
occurrence is the leftmost one; `none` when `pat` does not occur. -/
def splitFirst (pat : Str) : Str → Option (Str × Str)
  | [] => if pat.isEmpty then some ([], []) else none
  | x :: t =>
    if pat.isPrefixOf (x :: t) then some ([], (x :: t).drop pat.length)
    else
      match splitFirst pat t with
      | some (pre, rest) => some (x :: pre, rest)
      | none => none

/-- JS `s.includes(pat)`. -/
def includes (pat s : Str) : Bool := (splitFirst pat s).isSome

/-- Split at the first position where one of the literal alternatives `pats`
matches, trying the alternatives in order at each position (JS regex
alternation of literals). -/
def splitFirstAny (pats : List Str) : Str → Option (Str × Str)
  | [] => none
  | x :: t =>
    match pats.find? (fun p => p.isPrefixOf (x :: t)) with
    | some p => some ([], (x :: t).drop p.length)
    | none =>
      match splitFirstAny pats t with
      | some (pre, rest) => some (x :: pre, rest)
      | none => none

/-- Consume the first language tag of `tags` that textually matches the head
of the string (ordered regex alternation `(?:t1|t2|...)?`); falls back to
the empty tag. -/
def consumeTag (tags : List Str) (rest : Str) : Str × Str :=
  match tags with
  | [] => ([], rest)
  | t :: ts => if t.isPrefixOf rest then (t, rest.drop t.length) else consumeTag ts rest

/-- Drop leading JS whitespace. -/
def trimL (s : Str) : Str := s.dropWhile wsChar

/-- Drop trailing JS whitespace. -/
def trimR (s : Str) : Str := (s.reverse.dropWhile wsChar).reverse

/-- JS `String.prototype.trim`. -/
def trim (s : Str) : Str := trimR (trimL s)

/-- The fence marker of markdown code blocks. -/
def ticks : Str := chars "```"

/-- JS `s.startsWith(q)` for a single-character `q`. -/
def headIs (q : Char) (s : Str) : Bool := s.head? = some q

/-- JS `s.endsWith(q)` for a single-character `q`. -/
def lastIs (q : Char) (s : Str) : Bool := s.getLast? = some q

/-- `removeMarkdownCodeBlocks` (both builders), parameterized by the fence
language tags of its regex `/三(?:tags)?\n?([\s\S]*?)三/` (`三` standing for
the triple fence): the first fenced block is unwrapped (fence markers and
tag stripped), otherwise the string is returned unchanged.  The JS code
takes `matches[0]`, removes the first occurrence of the header pattern and a
trailing fence, which on the shapes produced by the regex yields exactly the
lazily-matched inner content. -/
def removeMarkdownCodeBlocks (tags : List Str) (code : Str) : Str :=
  match splitFirst ticks code with
  | none => code
  | some (_, rest) =>
    let tr := consumeTag tags rest
    let r2 := if tr.2.head? = some '\n' then tr.2.tail else tr.2
    match splitFirst ticks r2 with
    | none => code
    | some (inner, _) => inner

/-- Step 1 of `cleanGeneratedCode`: when the text contains a literal
backslash-n, undo the double escaping — `\n`, `\t`, `\r`, `\"` and, last,
`\\` (source order of the five global replacements). -/
def unescapeEscapes (rawCode : Str) : Str :=
  if has2 '\\' 'n' rawCode then
    repl2 '\\' '\\' '\\'
      (repl2 '\\' '"' '"'
        (repl2 '\\' 'r' '\r'
          (repl2 '\\' 't' '\t'
            (repl2 '\\' 'n' '\n' rawCode))))
  else rawCode

/-- Step 2 of `cleanGeneratedCode`: `replace(/\r\n/g, "\n").replace(/\r/g, "\n")`. -/
def normalizeEol (s : Str) : Str :=
  (repl2 '\r' '\n' '\n' s).map (fun c => if c = '\r' then '\n' else c)

/-- Step 3 of `cleanGeneratedCode`: strip one layer of wrapping straight
quotes (`slice(1, -1)` when the text both starts and ends with the same
quote character). -/
def stripWrappingQuotes (s : Str) : Str :=
  if (headIs '"' s && lastIs '"' s) || (headIs '\'' s && lastIs '\'' s)
  then (s.drop 1).dropLast else s

/-- Step 6 of `cleanGeneratedCode`: append a newline unless one is already
trailing. -/
def ensureTrailingLf (s : Str) : Str := if lastIs '\n' s then s else s ++ ['\n']

/-- `cleanGeneratedCode` (both builders), parameterized by the fence tags of
the `removeMarkdownCodeBlocks` it calls.  Steps, in source order:
conditional unescape of double-escaped text, line-ending normalization,
stripping one layer of wrapping quotes, unwrapping one markdown fence,
`trim`, and ensuring a trailing newline. -/
def cleanGeneratedCode (tags : List Str) (rawCode : Str) : Str :=
  ensureTrailingLf
    (trim (removeMarkdownCodeBlocks tags
      (stripWrappingQuotes (normalizeEol (unescapeEscapes rawCode)))))

/-- Fence tags of the backend `removeMarkdownCodeBlocks` regex, in
alternation order. -/
def backendFenceTags : List Str := [chars "motoko", chars "rust", chars "mo", chars "rs"]

/-- Fence tags of the frontend `removeMarkdownCodeBlocks` regex, in
alternation order. -/
def frontendFenceTags : List Str :=
  [chars "jsx", chars "tsx", chars "javascript", chars "typescript",
   chars "react", chars "nextjs"]

/-- One attempt to read a tagged fenced block at the head of `rest`, the text
immediately following an opening fence: the tag is mandatory and must be
followed by a newline, then the lazily-matched content runs to the next
fence.  Returns the full matched block and the remaining text after it. -/
def readBlock (tags : List Str) (rest : Str) : Option (Str × Str) :=
  match tags.find? (fun t => t.isPrefixOf rest) with
  | none => none
  | some tg =>
    match rest.drop tg.length with
    | '\n' :: r2 =>
      match splitFirst ticks r2 with
      | some (inner, after) => some (ticks ++ tg ++ '\n' :: (inner ++ ticks), after)
      | none => none
    | _ => none

/-- Fuel-indexed scanner for `content.match(/三(tag1|...)\n([\s\S]*?)三/g)`:
full matches in order; on a failed attempt the scan resumes one character
after the opening fence, on a success it resumes after the match. -/
def scanBlocksF (tags : List Str) : Nat → Str → List Str
  | 0, _ => []
  | fuel + 1, s =>
    match splitFirst ticks s with
    | none => []
    | some (_, rest) =>
      match readBlock tags rest with
      | some (block, after) => block :: scanBlocksF tags fuel after
      | none => scanBlocksF tags fuel ('`' :: '`' :: rest)

/-- All matches of the tagged-fence regex in the content (the scan shrinks
the text by at least one character per step, so the fuel is sufficient). -/
def scanBlocks (tags : List Str) (s : Str) : List Str := scanBlocksF tags (s.length + 1) s

/-- JS `Map.set`: replace in place when the key exists (keeping insertion
order), otherwise append. -/
def mapSet (k v : Str) : List (Str × Str) → List (Str × Str)
  | [] => [(k, v)]
  | e :: t => if e.1 = k then (k, v) :: t else e :: mapSet k v t

/-- `block.replace(/PAT\n?/, "")` for ordered literal alternatives `PAT`:
remove the first matching occurrence together with one following newline. -/
def stripHeadPat (pats : List Str) (b : Str) : Str :=
  match splitFirstAny pats b with
  | some (pre, rest) => pre ++ (if rest.head? = some '\n' then rest.tail else rest)
  | none => b

/-- `block.replace(/三$/, "")`: drop a trailing fence when present. -/
def stripEndTicks (b : Str) : Str :=
  if ticks.isSuffixOf b then b.dropLast.dropLast.dropLast else b

/-- Inner content of a matched block for header alternatives `pats`: strip
the header, the trailing fence, then `trim` — the
`block.replace(..).replace(/三$/, "").trim()` chain of both
`extractMarkdownSections`. -/
def blockBody (pats : List Str) (b : Str) : Str := trim (stripEndTicks (stripHeadPat pats b))

/-- The backend kinds accepted by the pipeline. -/
inductive Backend
  | motoko
  | rust
deriving DecidableEq

/-- The frontend kinds accepted by the pipeline. -/
inductive Frontend
  | react
  | nextjs
deriving DecidableEq

namespace BackendBuilder

/-- One iteration of the `extractMarkdownSections` loop of
`BackendBuilder`: classify the block by which tagged header it contains,
checked in source order, and store it under the fixed per-tag filename. -/
def sectionStep (files : List (Str × Str)) (block : Str) : List (Str × Str) :=
  if includes (chars "```motoko") block then
    mapSet (chars "main.mo") (blockBody [chars "```motoko"] block) files
  else if includes (chars "```rust") block then
    mapSet (chars "lib.rs") (blockBody [chars "```rust"] block) files
  else if includes (chars "```candid") block then
    mapSet (chars "backend.did") (blockBody [chars "```candid"] block) files
  else if includes (chars "```toml") block then
    mapSet (chars "Cargo.toml") (blockBody [chars "```toml"] block) files
  else files

/-- Fence tags of the backend `extractMarkdownSections` regex, in
alternation order. -/
def sectionTags : List Str := [chars "motoko", chars "rust", chars "candid", chars "toml"]

/-- `BackendBuilder.extractMarkdownSections`. -/
def extractMarkdownSections (content : Str) : List (Str × Str) :=
  let files := (scanBlocks sectionTags content).foldl sectionStep []
  if files.length = 0 then [(chars "main", content)] else files

/-- `BackendBuilder.cleanGeneratedCode`. -/
def cleanGeneratedCode (rawCode : Str) : Str := Icd.cleanGeneratedCode backendFenceTags rawCode

/-- `BackendBuilder.isMainFile`. -/
def isMainFile (filename : Str) (backend : Backend) : Bool :=
  match backend with
  | .motoko =>
    (chars ".mo").isSuffixOf filename &&
    (filename = chars "main.mo" || includes (chars "main") filename)
  | .rust =>
    (chars ".rs").isSuffixOf filename &&
    (filename = chars "lib.rs" || includes (chars "lib") filename)

end BackendBuilder

/-- The `GeneratedFiles` record of `backendBuilder.ts`; an absent JS
`additionalFiles` field is modelled by the empty list. -/
structure GeneratedFiles where
  mainFile : Str × Str
  candidFile : Option (Str × Str)
  additionalFiles : List (Str × Str)
deriving DecidableEq

namespace BackendBuilder

/-- Default primary filename per backend
(`backend === "motoko" ? "main.mo" : "lib.rs"`). -/
def defaultMainName (backend : Backend) : Str :=
  if backend = .motoko then chars "main.mo" else chars "lib.rs"

/-- One iteration of the `extractFilesFromResponse` classification loop. -/
def fileStep (backend : Backend) (files : GeneratedFiles) (e : Str × Str) : GeneratedFiles :=
  if isMainFile e.1 backend then { files with mainFile := e }
  else if (chars ".did").isSuffixOf e.1 then { files with candidFile := some e }
  else { files with additionalFiles := files.additionalFiles ++ [e] }

/-- `BackendBuilder.extractFilesFromResponse`. -/
def extractFilesFromResponse (content : Str) (backend : Backend) : GeneratedFiles :=
  let cleanContent := cleanGeneratedCode content
  let extracted := extractMarkdownSections cleanContent
  if 1 < extracted.length then
    extracted.foldl (fileStep backend) ⟨(defaultMainName backend, []), none, []⟩
  else ⟨(defaultMainName backend, cleanContent), none, []⟩

end BackendBuilder

/-- JSON-like values of an API response body, as seen by the JS parsers. -/
inductive JsValue where
  | str (s : Str)
  | num (n : Int)
  | bool (b : Bool)
  | null
  | arr (elems : List JsValue)
  | obj (fields : List (Str × JsValue))

/-- Property lookup on a plain JS object. -/
def getField (fields : List (Str × JsValue)) (k : Str) : Option JsValue :=
  (fields.find? (fun e => e.1 = k)).map (·.2)

/-- `value && typeof value === "string"`: a truthy string — the JS empty
string is falsy, any other string is truthy. -/
def truthyString : Option JsValue → Option Str
  | some (.str s) => if s = [] then none else some s
  | _ => none

/-- The fallback-field probe loop shared by both parsers: first key of the
ordered list whose value is a truthy string. -/
def firstAlternative (fields : List (Str × JsValue)) : List Str → Option Str
  | [] => none
  | k :: ks =>
    match truthyString (getField fields k) with
    | some s => some s
    | none => firstAlternative fields ks

namespace BackendBuilder

/-- The `generatedCode` selection of `BackendBuilder.parseAIResponse`
(a JS array reaches the object branch but carries none of the probed
fields, hence yields `null` like any other non-matching shape). -/
def selectGeneratedCode (responseData : JsValue) : Option Str :=
  match responseData with
  | .obj fields =>
    match truthyString (getField fields (chars "generatedCode")) with
    | some s => some s
    | none =>
      firstAlternative fields
        [chars "code", chars "message", chars "data", chars "content", chars "result"]
  | .str s => if s = [] then none else some s
  | _ => none

/-- `BackendBuilder.parseAIResponse`. -/
def parseAIResponse (responseData : JsValue) (backend : Backend) : Option GeneratedFiles :=
  (selectGeneratedCode responseData).map (fun code => extractFilesFromResponse code backend)

end BackendBuilder

/-- The `GeneratedFrontendFiles` record of `frontendBuilder.ts`; an absent
JS `additionalFiles` field is modelled by the empty list. -/
structure GeneratedFrontendFiles where
  appFile : Str × Str
  stylesFile : Option (Str × Str)
  additionalFiles : List (Str × Str)
deriving DecidableEq

namespace FrontendBuilder

/-- `FrontendBuilder.cleanGeneratedCode`. -/
def cleanGeneratedCode (rawCode : Str) : Str := Icd.cleanGeneratedCode frontendFenceTags rawCode

/-- One iteration of the `extractMarkdownSections` loop of
`FrontendBuilder`. -/
def sectionStep (files : List (Str × Str)) (block : Str) : List (Str × Str) :=
  if includes (chars "```jsx") block || includes (chars "```tsx") block then
    mapSet (if includes (chars "```tsx") block then chars "App.tsx" else chars "App.jsx")
      (blockBody [chars "```jsx", chars "```tsx"] block) files
  else if includes (chars "```css") block || includes (chars "```scss") block then
    mapSet (if includes (chars "```scss") block then chars "index.scss" else chars "globals.css")
      (blockBody [chars "```css", chars "```scss"] block) files
  else if includes (chars "```json") block then
    mapSet (chars "package.json") (blockBody [chars "```json"] block) files
  else files

/-- Fence tags of the frontend `extractMarkdownSections` regex, in
alternation order. -/
def sectionTags : List Str :=
  [chars "jsx", chars "tsx", chars "javascript", chars "typescript",
   chars "css", chars "scss", chars "json"]

/-- `FrontendBuilder.extractMarkdownSections`. -/
def extractMarkdownSections (content : Str) : List (Str × Str) :=
  let files := (scanBlocks sectionTags content).foldl sectionStep []
  if files.length = 0 then [(chars "main", content)] else files

/-- `FrontendBuilder.isMainAppFile`. -/
def isMainAppFile (filename : Str) (frontend : Frontend) : Bool :=
  match frontend with
  | .nextjs =>
    includes (chars "page.") filename || includes (chars "App.") filename ||
    (chars ".tsx").isSuffixOf filename || (chars ".jsx").isSuffixOf filename
  | .react =>
    includes (chars "App.") filename || includes (chars "app.") filename ||
    ((chars ".jsx").isSuffixOf filename || (chars ".tsx").isSuffixOf filename)

/-- `FrontendBuilder.isStylesFile`. -/
def isStylesFile (filename : Str) : Bool :=
  (chars ".css").isSuffixOf filename || (chars ".scss").isSuffixOf filename ||
  (chars ".sass").isSuffixOf filename || includes (chars "style") filename

/-- Default primary filename per frontend
(`frontend === "nextjs" ? "page.tsx" : "App.jsx"`). -/
def defaultAppName (frontend : Frontend) : Str :=
  if frontend = .nextjs then chars "page.tsx" else chars "App.jsx"

/-- One iteration of the `extractFrontendFilesFromResponse` classification
loop. -/
def fileStep (frontend : Frontend) (files : GeneratedFrontendFiles) (e : Str × Str) :
    GeneratedFrontendFiles :=
  if isMainAppFile e.1 frontend then { files with appFile := e }
  else if isStylesFile e.1 then { files with stylesFile := some e }
  else { files with additionalFiles := files.additionalFiles ++ [e] }

/-- `FrontendBuilder.extractFrontendFilesFromResponse`. -/
def extractFrontendFilesFromResponse (content : Str) (frontend : Frontend) :
    GeneratedFrontendFiles :=
  let cleanContent := cleanGeneratedCode content
  let extracted := extractMarkdownSections cleanContent
  if 1 < extracted.length then
    extracted.foldl (fileStep frontend) ⟨(defaultAppName frontend, []), none, []⟩
  else ⟨(defaultAppName frontend, cleanContent), none, []⟩

/-- The code selection of `FrontendBuilder.parseAIFrontendResponse`
(`code` first, then `generatedCode`, then the alternative keys). -/
def selectFrontendCode (responseData : JsValue) : Option Str :=
  match responseData with
  | .obj fields =>
    match truthyString (getField fields (chars "code")) with
    | some s => some s
    | none =>
      match truthyString (getField fields (chars "generatedCode")) with
      | some s => some s
      | none =>
        firstAlternative fields
          [chars "content", chars "data", chars "result", chars "message"]
  | .str s => if s = [] then none else some s
  | _ => none

/-- `FrontendBuilder.parseAIFrontendResponse`. -/
def parseAIFrontendResponse (responseData : JsValue) (frontend : Frontend) :
    Option GeneratedFrontendFiles :=
  (selectFrontendCode responseData).map
    (fun code => extractFrontendFilesFromResponse code frontend)

end FrontendBuilder


/-! ### Session status writes of the build pipeline -/

/-- The build-session lifecycle statuses of `BuildSession.status`. -/
inductive SessionStatus
  | pending
  | creatingProject
  | buildingBackend
  | buildingFrontend
  | completed
  | error
deriving DecidableEq

/-- Boolean outcomes of the fallible backend steps of `createFullBackend`
(`createDfxProject`, `buildBackendCode`, `replaceBackendCode`).  The
`updateDfxConfig` result and all frontend-stage results produce no further
status writes, so they do not appear. -/
structure PipelineOutcome where
  createOk : Bool
  generateOk : Bool
  replaceOk : Bool

/-- The sequence of `session.status` writes performed by
`BackendBuilder.createFullBackend`, paired with its boolean result. -/
def createFullBackendWrites (o : PipelineOutcome) : List SessionStatus × Bool :=
  if o.createOk = false then ([.creatingProject, .error], false)
  else if o.generateOk = false then ([.creatingProject, .buildingBackend, .error], false)
  else if o.replaceOk = false then ([.creatingProject, .buildingBackend, .error], false)
  else ([.creatingProject, .buildingBackend, .completed], true)

/-- The `session.status` writes of `IcdAppExtension.executeBuildPipeline`:
the backend-builder writes, then — on success — the pipeline's own
`building-frontend` write, the `building-frontend` write of
`FrontendBuilder.createFullFrontend` (which never writes an `error`
status), and the final `completed`; on failure the catch handler writes
`error` once more. -/
def executeBuildPipelineWrites (o : PipelineOutcome) : List SessionStatus :=
  match createFullBackendWrites o with
  | (w, true) => w ++ [.buildingFrontend, .buildingFrontend, .completed]
  | (w, false) => w ++ [.error]

/-- One status write as claim C7 describes it: forward by exactly one step
along `pending → creating-project → building-backend → building-frontend →
completed`, or a diversion to `error` from a non-terminal status; nothing
may follow `completed` or `error`. -/
def claimedStep (a b : SessionStatus) : Prop :=
  (b = .error ∧ a ≠ .completed ∧ a ≠ .error) ∨
  (a = .pending ∧ b = .creatingProject) ∨
  (a = .creatingProject ∧ b = .buildingBackend) ∨
  (a = .buildingBackend ∧ b = .buildingFrontend) ∨
  (a = .buildingFrontend ∧ b = .completed)

instance : DecidableRel claimedStep := fun a b =>
  inferInstanceAs (Decidable
    ((b = .error ∧ a ≠ .completed ∧ a ≠ .error) ∨
     (a = .pending ∧ b = .creatingProject) ∨
     (a = .creatingProject ∧ b = .buildingBackend) ∨
     (a = .buildingBackend ∧ b = .buildingFrontend) ∨
     (a = .buildingFrontend ∧ b = .completed)))

/-! ### Claim-statement normalizers and classifiers -/

/-- The response normalizer exactly as claim C2 words it: on an object, the
primary field is taken whenever it holds a string (no truthiness
requirement), else the first fallback field holding a string; a string
value is used directly; other shapes fail. -/
def claimedSelect (responseData : JsValue) : Option Str :=
  match responseData with
  | .obj fields =>
    match getField fields (chars "generatedCode") with
    | some (.str s) => some s
    | _ =>
      [chars "code", chars "message", chars "data", chars "content",
       chars "result"].findSome?
        (fun k =>
          match getField fields k with
          | some (.str s) => some s
          | _ => none)
  | .str s => some s
  | _ => none

/-- The response normalizer of claim C2 amended by the truthiness
requirement the source imposes: the first field of the ordered probe list
whose value is a non-empty string; a non-empty string value is used
directly; any other shape (including empty strings everywhere) fails. -/
def amendedSelect (keys : List Str) (v : JsValue) : Option Str :=
  match v with
  | .obj fields =>
    keys.findSome? (fun k =>
      match getField fields k with
      | some (.str s) => if s = [] then none else some s
      | _ => none)
  | .str s => if s = [] then none else some s
  | _ => none

/-- A target stack for the file classifier of claim C6. -/
inductive Stack
  | motoko
  | rust
  | react
  | nextjs
deriving DecidableEq

/-- "The file classifier returns primary": `BackendBuilder.isMainFile` for
backend stacks, `FrontendBuilder.isMainAppFile` for frontend stacks. -/
def classifierPrimary (st : Stack) (filename : Str) : Bool :=
  match st with
  | .motoko => BackendBuilder.isMainFile filename .motoko
  | .rust => BackendBuilder.isMainFile filename .rust
  | .react => FrontendBuilder.isMainAppFile filename .react
  | .nextjs => FrontendBuilder.isMainAppFile filename .nextjs

/-- Expected source extension per stack (claim C6). -/
def stackExt : Stack → Str
  | .motoko => chars ".mo"
  | .rust => chars ".rs"
  | .nextjs => chars ".tsx"
  | .react => chars ".jsx"

/-- Canonical main filename per stack (claim C6). -/
def stackMainName : Stack → Str
  | .motoko => chars "main.mo"
  | .rust => chars "lib.rs"
  | .nextjs => chars "page.tsx"
  | .react => chars "App.jsx"

/-- Canonical main-file stem per stack (claim C6). -/
def stackStem : Stack → Str
  | .motoko => chars "main"
  | .rust => chars "lib"
  | .nextjs => chars "page"
  | .react => chars "App"

/-- The classifier exactly as claim C6 words it: extension matches AND
(the filename is the canonical main filename OR the stem — the filename
with the extension removed — contains the canonical main stem). -/
def claimedPrimary (st : Stack) (filename : Str) : Bool :=
  (stackExt st).isSuffixOf filename &&
  (filename = stackMainName st ||
   includes (stackStem st) (filename.take (filename.length - (stackExt st).length)))


/-! ### First-occurrence search: basic lemmas -/

theorem splitFirst_eq {pat : Str} :
    ∀ {s pre rest : Str}, splitFirst pat s = some (pre, rest) → s = pre ++ pat ++ rest := by
  intro s
  induction s with
  | nil =>
    intro pre rest h
    simp only [splitFirst] at h
    split at h
    · rename_i hp
      rw [List.isEmpty_iff] at hp
      simp only [Option.some.injEq, Prod.mk.injEq] at h
      simp [hp, ← h.1, ← h.2]
    · exact absurd h (by simp)
  | cons x t ih =>
    intro pre rest h
    simp only [splitFirst] at h
    split at h
    · rename_i hp
      rw [List.isPrefixOf_iff_prefix] at hp
      obtain ⟨u, hu⟩ := hp
      simp only [Option.some.injEq, Prod.mk.injEq] at h
      rw [← h.1, ← h.2, ← hu, List.nil_append, List.drop_left]
    · rename_i hp
      rcases hrec : splitFirst pat t with _ | ⟨p, r⟩ <;> rw [hrec] at h
      · exact absurd h (by simp)
      · simp only [Option.some.injEq, Prod.mk.injEq] at h
        rw [← h.1, ← h.2]
        simpa using ih hrec

theorem splitFirst_none {pat : Str} :
    ∀ {s : Str}, splitFirst pat s = none → ¬ pat <:+: s := by
  intro s
  induction s with
  | nil =>
    intro h hinf
    simp only [splitFirst] at h
    have : pat = [] := List.eq_nil_of_infix_nil hinf
    simp [this] at h
  | cons x t ih =>
    intro h hinf
    simp only [splitFirst] at h
    split at h
    · exact absurd h (by simp)
    · rename_i hp
      rcases hrec : splitFirst pat t with _ | ⟨p, r⟩ <;> rw [hrec] at h
      · rcases List.infix_cons_iff.mp hinf with hpre | hinf'
        · exact hp (List.isPrefixOf_iff_prefix.mpr hpre)
        · exact ih hrec hinf'
      · exact absurd h (by simp)

theorem splitFirst_isSome_iff {pat s : Str} :
    (splitFirst pat s).isSome = true ↔ pat <:+: s := by
  constructor
  · intro h
    rcases hs : splitFirst pat s with _ | ⟨pre, rest⟩
    · rw [hs] at h; simp at h
    · exact ⟨pre, rest, (splitFirst_eq hs).symm⟩
  · intro h
    rcases hs : splitFirst pat s with _ | ⟨pre, rest⟩
    · exact absurd h (splitFirst_none hs)
    · simp

theorem includes_iff_occurs {pat s : Str} : includes pat s = true ↔ pat <:+: s :=
  splitFirst_isSome_iff

theorem splitFirst_first {pat : Str} :
    ∀ {s pre rest : Str}, splitFirst pat s = some (pre, rest) →
      ∀ u v, s = u ++ pat ++ v → pre <+: u := by
  intro s
  induction s with
  | nil =>
    intro pre rest h u v huv
    simp only [splitFirst] at h
    split at h
    · simp only [Option.some.injEq, Prod.mk.injEq] at h
      rw [← h.1]
      exact List.nil_prefix
    · exact absurd h (by simp)
  | cons x t ih =>
    intro pre rest h u v huv
    simp only [splitFirst] at h
    split at h
    · simp only [Option.some.injEq, Prod.mk.injEq] at h
      rw [← h.1]
      exact List.nil_prefix
    · rename_i hp
      rcases hrec : splitFirst pat t with _ | ⟨p, r⟩ <;> rw [hrec] at h
      · exact absurd h (by simp)
      · simp only [Option.some.injEq, Prod.mk.injEq] at h
        rcases u with _ | ⟨y, u'⟩
        · exfalso
          apply hp
          rw [List.isPrefixOf_iff_prefix]
          exact ⟨v, by simpa using huv.symm⟩
        · simp only [List.cons_append, List.cons.injEq] at huv
          rw [← h.1, huv.1]
          exact List.cons_prefix_cons.mpr ⟨rfl, ih hrec u' v huv.2⟩

/-- The text before the first occurrence contains no occurrence. -/
theorem splitFirst_pre_free {pat s pre rest : Str}
    (h : splitFirst pat s = some (pre, rest)) (hpat : pat ≠ []) : ¬ pat <:+: pre := by
  intro hinf
  obtain ⟨a, b, hab⟩ := hinf
  have hs := splitFirst_eq h
  have : s = a ++ pat ++ (b ++ pat ++ rest) := by
    rw [hs, ← hab]; simp
  have hpre := splitFirst_first h a (b ++ pat ++ rest) this
  have hlen := hpre.length_le
  rw [← hab] at hlen
  simp only [List.length_append] at hlen
  have : pat.length = 0 := by omega
  exact hpat (List.length_eq_zero.mp this)

/-- An occurrence of `pat` in `t ++ u` lies inside `t` when `u` is too short
to contain one, is not itself `pat`, and starts with a character not in
`pat`. -/
theorem infix_append_right_elim {pat t u : Str} (h1 : pat <:+: t ++ u)
    (hlen : u.length ≤ pat.length) (hne : u ≠ pat)
    (hhead : ∀ d, u.head? = some d → d ∉ pat) : pat <:+: t := by
  obtain ⟨a, b, hab⟩ := h1
  have hab' : a ++ (pat ++ b) = t ++ u := by simpa using hab
  rcases List.append_eq_append_iff.mp hab' with ⟨e, he, hpe⟩ | ⟨e, he, hue⟩
  · rcases List.append_eq_append_iff.mp hpe with ⟨g, hg, hbg⟩ | ⟨g, hg, hug⟩
    · exact ⟨a, g, by rw [he, hg]; simp⟩
    · rcases g with _ | ⟨d, g'⟩
      · simp only [List.append_nil] at hg
        exact ⟨a, [], by rw [he, ← hg]; simp⟩
      · exfalso
        apply hhead d (by rw [hug]; rfl)
        rw [hg]
        simp
  · exfalso
    have hlen' : u.length = e.length + pat.length + b.length := by
      rw [hue]; simp; omega
    have he' : e = [] := List.length_eq_zero.mp (by omega)
    have hb' : b = [] := List.length_eq_zero.mp (by omega)
    apply hne
    rw [hue, he', hb']
    simp

/-- `includes` of a stem word is unchanged by removing a short suffix whose
first character does not occur in the word (claim C6's backend case). -/
theorem includes_drop_ext {word ext f t : Str} (hf : f = t ++ ext)
    (hlen : ext.length ≤ word.length) (hne : ext ≠ word)
    (hhead : ∀ d, ext.head? = some d → d ∉ word) :
    includes word f = includes word t := by
  rcases hw : includes word t with _ | _
  · rcases hv : includes word f with _ | _
    · rfl
    · exfalso
      rw [← Bool.not_eq_true] at hw
      apply hw
      rw [includes_iff_occurs] at hv ⊢
      rw [hf] at hv
      exact infix_append_right_elim hv hlen hne hhead
  · rw [includes_iff_occurs] at hw ⊢
    rw [hf]
    exact hw.trans (List.prefix_append t ext).isInfix

/-! ### Claim C1 -/

/-- C1: for a rust backend, parsing the API response object
`obj (generatedCode ↦ "三rust\nfn x()\x7b\x7d\n三")` (with `三` the triple
fence) yields a generated file set whose primary file is `lib.rs` with
content exactly `fn x()\x7b\x7d` followed by a single line-feed, no candid
file, and no additional files. -/
theorem c1_rust_end_to_end :
    BackendBuilder.parseAIResponse
      (.obj [(chars "generatedCode", .str (chars "```rust\nfn x()\x7b\x7d\n```"))]) .rust
    = some ⟨(chars "lib.rs", chars "fn x()\x7b\x7d\n"), none, []⟩ := by
  rfl

/-! ### Claim C8 -/

/-- C8 counterexample: parsing the double-escaped response object
`obj (code ↦ "\\n// hello\\n")` produces cleaned main-file content
`"// hello\n"` — the `trim` step removes the leading decoded newline — and
not the claimed `"\n// hello\n"` (real newline, comment, real newline). -/
theorem c8_counterexample :
    (BackendBuilder.parseAIResponse
      (.obj [(chars "code", .str (chars "\\n// hello\\n"))]) .rust).map
        (fun g => g.mainFile.2) = some (chars "// hello\n") ∧
    some (chars "// hello\n") ≠ some (chars "\n// hello\n") := by
  exact ⟨rfl, by decide⟩

/-- C8 amended: parsing `obj (code ↦ "\\n// hello\\n")` decodes the escaped
newlines to real ones, trims the surrounding whitespace (including the
leading decoded newline), and ensures a single trailing newline: the
cleaned content is exactly `"// hello\n"`. -/
theorem c8_amended :
    BackendBuilder.parseAIResponse
      (.obj [(chars "code", .str (chars "\\n// hello\\n"))]) .rust
    = some ⟨(chars "lib.rs", chars "// hello\n"), none, []⟩ := by
  rfl

/-! ### Claim C2 -/

/-- C2 counterexample: on `obj (generatedCode ↦ "")` the primary field holds
a string, so the claimed normalizer takes it, but the source requires a
truthy value and the JS empty string is falsy: the code's normalizer (and
hence `parseAIResponse`) fails instead. -/
theorem c2_counterexample :
    BackendBuilder.selectGeneratedCode (.obj [(chars "generatedCode", .str [])]) = none ∧
    BackendBuilder.parseAIResponse (.obj [(chars "generatedCode", .str [])]) .rust = none ∧
    claimedSelect (.obj [(chars "generatedCode", .str [])]) = some [] := by
  exact ⟨rfl, rfl, rfl⟩

/-- The fallback probe loop is the first-match scan over its key list. -/
theorem firstAlternative_eq_findSome (fields : List (Str × JsValue)) :
    ∀ ks : List Str,
      firstAlternative fields ks =
        ks.findSome? (fun k =>
          match getField fields k with
          | some (.str s) => if s = [] then none else some s
          | _ => none) := by
  intro ks
  induction ks with
  | nil => rfl
  | cons k ks ih =>
    show (match truthyString (getField fields k) with
          | some s => some s
          | none => firstAlternative fields ks) = _
    rw [List.findSome?_cons]
    rcases hk : getField fields k with _ | jv
    · simpa [truthyString] using ih
    · rcases jv with s | n | b | _ | elems | flds
      · by_cases hs : s = []
        · subst hs
          simpa [truthyString] using ih
        · simp [truthyString, hs]
      all_goals simpa [truthyString] using ih

/-- C2 amended: both response normalizers take the first field of their
fixed ordered probe list whose value is a NON-EMPTY string (backend:
`generatedCode, code, message, data, content, result`; frontend: `code,
generatedCode, content, data, result, message`); a non-empty string value
is used directly; empty strings count as absent, and any other shape
(array, number, null, boolean, or an object with no such field) fails. -/
theorem c2_amended : ∀ v : JsValue,
    BackendBuilder.selectGeneratedCode v =
      amendedSelect [chars "generatedCode", chars "code", chars "message",
        chars "data", chars "content", chars "result"] v ∧
    FrontendBuilder.selectFrontendCode v =
      amendedSelect [chars "code", chars "generatedCode", chars "content",
        chars "data", chars "result", chars "message"] v := by
  intro v
  rcases v with s | n | b | _ | elems | fields
  · exact ⟨rfl, rfl⟩
  · exact ⟨rfl, rfl⟩
  · exact ⟨rfl, rfl⟩
  · exact ⟨rfl, rfl⟩
  · exact ⟨rfl, rfl⟩
  constructor
  · show (match truthyString (getField fields (chars "generatedCode")) with
          | some s => some s
          | none => firstAlternative fields _) = _
    rw [amendedSelect, List.findSome?_cons]
    rcases hk : getField fields (chars "generatedCode") with _ | jv
    · simp [truthyString, firstAlternative_eq_findSome]
    · rcases jv with s | n | b | _ | elems | flds
      · by_cases hs : s = []
        · subst hs
          simp [truthyString, firstAlternative_eq_findSome]
        · simp [truthyString, hs]
      all_goals simp [truthyString, firstAlternative_eq_findSome]
  · show (match truthyString (getField fields (chars "code")) with
          | some s => some s
          | none =>
            match truthyString (getField fields (chars "generatedCode")) with
            | some s => some s
            | none => firstAlternative fields _) = _
    rw [amendedSelect, List.findSome?_cons, List.findSome?_cons]
    rcases hk : getField fields (chars "code") with _ | jv
    case _ =>
      simp only [truthyString]
      rcases hk2 : getField fields (chars "generatedCode") with _ | jv2
      · simp [truthyString, firstAlternative_eq_findSome]
      · rcases jv2 with s | n | b | _ | elems | flds
        · by_cases hs : s = []
          · subst hs
            simp [truthyString, firstAlternative_eq_findSome]
          · simp [truthyString, hs]
        all_goals simp [truthyString, firstAlternative_eq_findSome]
    case _ =>
      rcases jv with s | n | b | _ | elems | flds
      · by_cases hs : s = []
        · subst hs
          simp only [truthyString, if_pos rfl]
          rcases hk2 : getField fields (chars "generatedCode") with _ | jv2
          · simp [truthyString, firstAlternative_eq_findSome]
          · rcases jv2 with s2 | n2 | b2 | _ | elems2 | flds2
            · by_cases hs2 : s2 = []
              · subst hs2
                simp [truthyString, firstAlternative_eq_findSome]
              · simp [truthyString, hs2]
            all_goals simp [truthyString, firstAlternative_eq_findSome]
        · simp [truthyString, hs]
      all_goals
        simp only [truthyString]
        rcases hk2 : getField fields (chars "generatedCode") with _ | jv2
        · simp [truthyString, firstAlternative_eq_findSome]
        · rcases jv2 with s2 | n2 | b2 | _ | elems2 | flds2
          · by_cases hs2 : s2 = []
            · subst hs2
              simp [truthyString, firstAlternative_eq_findSome]
            · simp [truthyString, hs2]
          all_goals simp [truthyString, firstAlternative_eq_findSome]

/-! ### Claim C6 -/

/-- C6 counterexample: for the nextjs stack the classifier marks
`foo.tsx` primary (its extension alone suffices in the source's
disjunction), while the claimed rule — extension matches AND (canonical
name OR stem contains "page") — rejects it. -/
theorem c6_counterexample :
    classifierPrimary .nextjs (chars "foo.tsx") = true ∧
    claimedPrimary .nextjs (chars "foo.tsx") = false := by
  exact ⟨rfl, by decide⟩

/-- C6 amended: the claimed conjunctive rule (extension AND canonical name
OR stem-contains) is exactly right for the two backend stacks — where
"contains in the stem" and "contains in the whole filename" coincide
because no occurrence of `main`/`lib` can overlap the `.mo`/`.rs`
extension — but the frontend classifier is a plain disjunction: a filename
is primary when it contains `page.` / `App.` / `app.` (stack-dependent) or
merely carries a `.tsx` / `.jsx` extension, with no conjunction between
extension and stem. -/
theorem c6_amended : ∀ filename : Str,
    (classifierPrimary .motoko filename = claimedPrimary .motoko filename) ∧
    (classifierPrimary .rust filename = claimedPrimary .rust filename) ∧
    (classifierPrimary .nextjs filename =
      (includes (chars "page.") filename || includes (chars "App.") filename ||
       (chars ".tsx").isSuffixOf filename || (chars ".jsx").isSuffixOf filename)) ∧
    (classifierPrimary .react filename =
      (includes (chars "App.") filename || includes (chars "app.") filename ||
       ((chars ".jsx").isSuffixOf filename || (chars ".tsx").isSuffixOf filename))) := by
  intro f
  refine ⟨?_, ?_, rfl, rfl⟩
  · show BackendBuilder.isMainFile f .motoko = claimedPrimary .motoko f
    rw [BackendBuilder.isMainFile, claimedPrimary]
    rcases hsuf : (stackExt .motoko).isSuffixOf f with _ | _
    · rw [show stackExt .motoko = chars ".mo" from rfl] at hsuf
      rw [hsuf]
      rfl
    · obtain ⟨t, ht⟩ := List.isSuffixOf_iff_suffix.mp hsuf
      have hext : stackExt .motoko = chars ".mo" := rfl
      rw [hext] at hsuf ht
      have htake : f.take (f.length - (stackExt .motoko).length) = t := by
        rw [hext, ← ht, List.length_append]
        have h3 : t.length + (chars ".mo").length - (chars ".mo").length = t.length := by omega
        rw [h3, List.take_left]
      have hinc : includes (chars "main") f = includes (chars "main") t :=
        includes_drop_ext (by rw [← ht]) (by decide) (by decide)
          (by intro d hd
              have h' : some '.' = some d := hd
              rw [Option.some_inj] at h'
              subst h'
              decide)
      rw [hsuf, htake, hinc]
      rfl
  · show BackendBuilder.isMainFile f .rust = claimedPrimary .rust f
    rw [BackendBuilder.isMainFile, claimedPrimary]
    rcases hsuf : (stackExt .rust).isSuffixOf f with _ | _
    · rw [show stackExt .rust = chars ".rs" from rfl] at hsuf
      rw [hsuf]
      rfl
    · obtain ⟨t, ht⟩ := List.isSuffixOf_iff_suffix.mp hsuf
      have hext : stackExt .rust = chars ".rs" := rfl
      rw [hext] at hsuf ht
      have htake : f.take (f.length - (stackExt .rust).length) = t := by
        rw [hext, ← ht, List.length_append]
        have h3 : t.length + (chars ".rs").length - (chars ".rs").length = t.length := by omega
        rw [h3, List.take_left]
      have hinc : includes (chars "lib") f = includes (chars "lib") t :=
        includes_drop_ext (by rw [← ht]) (by decide) (by decide)
          (by intro d hd
              have h' : some '.' = some d := hd
              rw [Option.some_inj] at h'
              subst h'
              decide)
      rw [hsuf, htake, hinc]
      rfl

/-! ### Claim C7 -/

/-- C7 counterexample: on the all-success run the pipeline's status writes
are `creating-project, building-backend, completed, building-frontend,
building-frontend, completed` — `createFullBackend` jumps from
`building-backend` straight to `completed` (skipping `building-frontend`),
and the pipeline then writes `building-frontend` after `completed` — so the
claimed one-step-forward discipline starting from `pending` fails. -/
theorem c7_counterexample :
    ¬ List.Chain claimedStep SessionStatus.pending
        (executeBuildPipelineWrites ⟨true, true, true⟩) := by
  intro h
  rw [show executeBuildPipelineWrites ⟨true, true, true⟩ =
      [.creatingProject, .buildingBackend, .completed,
       .buildingFrontend, .buildingFrontend, .completed] from rfl] at h
  rcases h with _ | ⟨h01, _ | ⟨h12, _ | ⟨h23, _⟩⟩⟩
  exact absurd h23 (by decide)

/-- C7 amended: the writes of a pipeline run are exactly one of three
sequences — `creating-project, error, error` (project creation failed),
`creating-project, building-backend, error, error` (generation or
file-replacement failed; the error status is written twice, once by the
backend builder and once by the pipeline's catch handler), or
`creating-project, building-backend, completed, building-frontend,
building-frontend, completed` (success: `completed` is written before the
frontend stage, `building-frontend` is then written twice after it, once by
the pipeline and once by `createFullFrontend`, and frontend failures change
no status). -/
theorem c7_amended : ∀ o : PipelineOutcome,
    executeBuildPipelineWrites o =
      [.creatingProject, .error, .error] ∨
    executeBuildPipelineWrites o =
      [.creatingProject, .buildingBackend, .error, .error] ∨
    executeBuildPipelineWrites o =
      [.creatingProject, .buildingBackend, .completed,
       .buildingFrontend, .buildingFrontend, .completed] := by
  rintro ⟨c, g, r⟩
  cases c <;> cases g <;> cases r <;> decide

/-! ### Two-character replacement: occurrence lemmas -/

/-- Induction principle following the recursion of `repl2` / `has2`. -/
theorem twoStep {motive : Str → Prop} (h0 : motive []) (h1 : ∀ x, motive [x])
    (h2 : ∀ x y t, motive t → motive (y :: t) → motive (x :: y :: t)) : ∀ s, motive s
  | [] => h0
  | [x] => h1 x
  | x :: y :: t => h2 x y t (twoStep h0 h1 h2 t) (twoStep h0 h1 h2 (y :: t))

theorem has2_cons (a b x : Char) (l : Str) :
    has2 a b (x :: l) = ((decide (x = a) && decide (l.head? = some b)) || has2 a b l) := by
  rcases l with _ | ⟨y, t⟩
  · simp [has2]
  · by_cases h : x = a ∧ y = b
    · simp [has2, h, h.1, h.2]
    · rw [has2, if_neg h]
      rcases Decidable.not_and_iff_or_not.mp h with h' | h'
      · simp [h']
      · simp only [List.head?_cons, Option.some_inj]
        simp [h']

theorem has2_iff_occurs {a b : Char} : ∀ {s : Str}, has2 a b s = true ↔ [a, b] <:+: s := by
  have main : ∀ s : Str, has2 a b s = true ↔ [a, b] <:+: s := by
    apply twoStep
    · constructor
      · intro h
        simp [has2] at h
      · intro h
        have := h.length_le
        simp at this
    · intro x
      constructor
      · intro h
        simp [has2] at h
      · intro h
        have := h.length_le
        simp at this
    · intro x y t iht ihyt
      by_cases h : x = a ∧ y = b
      · rw [has2, if_pos h, h.1, h.2]
        simp only [true_iff]
        exact ⟨[], t, rfl⟩
      · rw [has2, if_neg h, ihyt]
        constructor
        · intro hi
          exact hi.trans (List.suffix_cons x (y :: t)).isInfix
        · intro hi
          rcases List.infix_cons_iff.mp hi with hpre | hi'
          · exfalso
            rcases List.cons_prefix_cons.mp hpre with ⟨rfl, h2⟩
            rcases List.cons_prefix_cons.mp h2 with ⟨rfl, _⟩
            exact h ⟨rfl, rfl⟩
          · exact hi'
  exact fun {s} => main s

theorem has2_false_of_sub {a b : Char} {w s : Str} (hws : w <:+: s)
    (h : has2 a b s = false) : has2 a b w = false := by
  by_contra hw
  rw [Bool.not_eq_false, has2_iff_occurs] at hw
  have hs : has2 a b s = true := has2_iff_occurs.mpr (hw.trans hws)
  rw [hs] at h
  exact absurd h (by simp)

theorem repl2_head? {p q c d : Char} (hcd : c ≠ d) :
    ∀ {s : Str}, (repl2 p q c s).head? = some d → s.head? = some d := by
  intro s
  rcases s with _ | ⟨x, t⟩
  · simp [repl2]
  · rcases t with _ | ⟨y, t'⟩
    · simp [repl2]
    · intro h
      rw [repl2] at h
      split at h
      · rw [List.head?_cons, Option.some_inj] at h
        exact absurd h hcd
      · exact h

/-- After `repl2 a b c` with `c` distinct from both pattern characters, the
pattern `[a, b]` is gone. -/
theorem repl2_has2_self {a b c : Char} (hca : c ≠ a) (hcb : c ≠ b) :
    ∀ s, has2 a b (repl2 a b c s) = false := by
  apply twoStep
  · rfl
  · intro x
    rfl
  · intro x y t iht ihyt
    by_cases h : x = a ∧ y = b
    · rw [repl2, if_pos h, has2_cons]
      simp [hca, iht]
    · rw [repl2, if_neg h, has2_cons]
      simp only [ihyt, Bool.or_false]
      by_cases hx : x = a
      · rcases hd : (repl2 a b c (y :: t)).head? with _ | d
        · simp [hd]
        · by_cases hdb : d = b
          · exfalso
            subst hdb
            have h2 := repl2_head? hcb hd
            rw [List.head?_cons, Option.some_inj] at h2
            exact h ⟨hx, h2⟩
          · simp [hd, hdb]
      · simp [hx]

theorem has2_head (a b x : Char) (l : Str) (hx : x = a) (hl : l.head? = some b) :
    has2 a b (x :: l) = true := by
  rw [has2_cons]
  simp [hx, hl]

theorem has2_cons_false {a b x : Char} {l : Str} (h : has2 a b (x :: l) = false) :
    has2 a b l = false := by
  rw [has2_cons, Bool.or_eq_false_iff] at h
  exact h.2

/-- Replacing the pattern `[p, q]` by `c` cannot create an occurrence of a
tracked pattern `[a, b]` that was absent, provided the replacement
character cannot serve as the tracked second character and can only serve
as the tracked first character when the replaced second character could
(`c = a → q = a`). -/
theorem repl2_has2_preserve {p q c a b : Char} (hcb : c ≠ b) (hqa : c = a → q = a) :
    ∀ s, has2 a b s = false → has2 a b (repl2 p q c s) = false := by
  apply twoStep
  · intro _
    rfl
  · intro x _
    rfl
  · intro x y t iht ihyt hs
    have hyt : has2 a b (y :: t) = false := has2_cons_false hs
    have ht : has2 a b t = false := has2_cons_false hyt
    by_cases h : x = p ∧ y = q
    · rw [repl2, if_pos h, has2_cons, Bool.or_eq_false_iff]
      refine ⟨?_, iht ht⟩
      by_cases hca : c = a
      · rcases hd : (repl2 p q c t).head? with _ | d
        · simp [hd]
        · by_cases hdb : d = b
          · exfalso
            rw [hdb] at hd
            have h2 := repl2_head? hcb hd
            have htrue := has2_head a b y t (by rw [h.2]; exact hqa hca) h2
            rw [htrue] at hyt
            exact absurd hyt (by simp)
          · simp [hd, hdb]
      · simp [hca]
    · rw [repl2, if_neg h, has2_cons, Bool.or_eq_false_iff]
      refine ⟨?_, ihyt hyt⟩
      by_cases hx : x = a
      · rcases hd : (repl2 p q c (y :: t)).head? with _ | d
        · simp [hd]
        · by_cases hdb : d = b
          · exfalso
            rw [hdb] at hd
            have h2 := repl2_head? hcb hd
            have htrue := has2_head a b x (y :: t) hx h2
            rw [htrue] at hs
            exact absurd hs (by simp)
          · simp [hd, hdb]
      · simp [hx]

/-- Character substitution cannot create the tracked pattern when the
substitute never produces either tracked character from a different one. -/
theorem has2_map_preserve {a b : Char} {f : Char → Char}
    (hfa : ∀ z, f z = a → z = a) (hfb : ∀ z, f z = b → z = b) :
    ∀ s : Str, has2 a b s = false → has2 a b (s.map f) = false := by
  apply twoStep
  · intro _
    rfl
  · intro x _
    rfl
  · intro x y t _ ihyt hs
    have hyt : has2 a b (y :: t) = false := has2_cons_false hs
    rw [List.map_cons, has2_cons, Bool.or_eq_false_iff]
    refine ⟨?_, ihyt hyt⟩
    rw [List.map_cons, List.head?_cons]
    by_cases hfx : f x = a
    · by_cases hfy : f y = b
      · exfalso
        have htrue := has2_head a b x (y :: t) (hfa _ hfx)
          (by rw [List.head?_cons, hfb _ hfy])
        rw [htrue] at hs
        exact absurd hs (by simp)
      · simp [hfy]
    · simp [hfx]

/-- Appending a line-feed cannot create a tracked pattern whose second
character is not a line-feed. -/
theorem has2_append_lf {a b : Char} (hb : b ≠ '\n') :
    ∀ s : Str, has2 a b s = false → has2 a b (s ++ ['\n']) = false := by
  apply twoStep
  · intro _
    rfl
  · intro x _
    rw [List.singleton_append, has2_cons]
    simp only [List.head?_cons, Option.some_inj]
    simp only [has2, Bool.or_false, Bool.and_eq_false_iff, decide_eq_false_iff_not]
    right
    exact fun h => hb h.symm
  · intro x y t _ ihyt hs
    have hyt : has2 a b (y :: t) = false := has2_cons_false hs
    rw [List.cons_append, has2_cons, Bool.or_eq_false_iff]
    refine ⟨?_, ihyt hyt⟩
    rw [List.cons_append, List.head?_cons]
    by_cases hx : x = a
    · by_cases hy : y = b
      · exfalso
        have htrue := has2_head a b x (y :: t) hx (by rw [List.head?_cons, hy])
        rw [htrue] at hs
        exact absurd hs (by simp)
      · simp [hy]
    · simp [hx]

/-- The carriage-return substitution step leaves no carriage return. -/
theorem cr_not_mem_map (s : Str) :
    '\r' ∉ s.map (fun c => if c = '\r' then '\n' else c) := by
  intro h
  rw [List.mem_map] at h
  obtain ⟨z, _, hz⟩ := h
  by_cases hzr : z = '\r'
  · rw [if_pos hzr] at hz
    exact absurd hz (by decide)
  · rw [if_neg hzr] at hz
    exact hzr hz

/-! ### Fence structure of cleaned text -/

/-- The text contains no two disjoint fence markers — hence no fenced block
can be read from it. -/
def NoTwoFences (s : Str) : Prop := ¬ ∃ u v w, s = u ++ ticks ++ v ++ ticks ++ w

theorem noTwoFences_of_no_fence {s : Str} (h : ¬ ticks <:+: s) : NoTwoFences s := by
  rintro ⟨u, v, w, rfl⟩
  exact h ⟨u, v ++ ticks ++ w, by simp⟩

theorem noTwoFences_of_sub {w s : Str} (hws : w <:+: s) (h : NoTwoFences s) :
    NoTwoFences w := by
  rintro ⟨u, v, x, rfl⟩
  obtain ⟨a, b, rfl⟩ := hws
  exact h ⟨a ++ u, v, x ++ b, by simp⟩

theorem trimL_sub (s : Str) : trimL s <:+ s := List.dropWhile_suffix wsChar

theorem trimR_pre (s : Str) : trimR s <+: s := by
  have h : (s.reverse.dropWhile wsChar).reverse <+: s.reverse.reverse :=
    List.reverse_prefix.mpr (List.dropWhile_suffix wsChar)
  rwa [List.reverse_reverse] at h

theorem trim_sub (s : Str) : trim s <:+: s :=
  (trimR_pre (trimL s)).isInfix.trans (trimL_sub s).isInfix

theorem append_singleton_inj {w u : Str} {c e : Char} (h : w ++ [c] = u ++ [e]) :
    w = u ∧ c = e := by
  have := List.append_inj' h rfl
  refine ⟨this.1, ?_⟩
  have h2 := this.2
  rw [List.cons.injEq] at h2
  exact h2.1

theorem not_infix_append_lf {p w : Str} (hp : p ≠ []) (hlf : '\n' ∉ p)
    (h : ¬ p <:+: w) : ¬ p <:+: (w ++ ['\n']) := by
  rintro ⟨a, b, hab⟩
  rcases b.eq_nil_or_concat with rfl | ⟨b', e, rfl⟩
  · rw [List.append_nil] at hab
    have hlast : p.getLast? = some '\n' := by
      rw [← List.getLast?_append_of_ne_nil a hp, hab, List.getLast?_concat]
    exact hlf (List.mem_of_mem_getLast? (by rw [hlast]; rfl))
  · rw [List.concat_eq_append, ← List.append_assoc] at hab
    have hw := (append_singleton_inj hab).1
    exact h ⟨a, b', hw⟩

theorem noTwoFences_append_lf {w : Str} (h : NoTwoFences w) :
    NoTwoFences (w ++ ['\n']) := by
  rintro ⟨u, v, x, hx⟩
  rcases x.eq_nil_or_concat with rfl | ⟨x', e, rfl⟩
  · rw [List.append_nil] at hx
    have hlast : (w ++ ['\n']).getLast? = (u ++ ticks ++ v ++ ticks).getLast? := by
      rw [hx]
    rw [List.getLast?_concat,
      List.getLast?_append_of_ne_nil (u ++ ticks ++ v) (by decide)] at hlast
    exact absurd hlast (by decide)
  · rw [List.concat_eq_append, ← List.append_assoc] at hx
    have hw := (append_singleton_inj hx).1
    exact h ⟨u, v, x', hw⟩

theorem consumeTag_eq : ∀ (tags : List Str) (rest : Str),
    rest = (consumeTag tags rest).1 ++ (consumeTag tags rest).2 ∧
    ((consumeTag tags rest).1 = [] ∨ (consumeTag tags rest).1 ∈ tags) := by
  intro tags
  induction tags with
  | nil => exact fun rest => ⟨rfl, Or.inl rfl⟩
  | cons t ts ih =>
    intro rest
    rw [consumeTag]
    split
    · rename_i hpre
      rw [List.isPrefixOf_iff_prefix] at hpre
      obtain ⟨u, hu⟩ := hpre
      constructor
      · show rest = t ++ rest.drop t.length
        rw [← hu, List.drop_left]
      · exact Or.inr (List.mem_cons_self t ts)
    · exact ⟨(ih rest).1, (ih rest).2.elim Or.inl (fun hm => Or.inr (List.mem_cons_of_mem t hm))⟩

/-- If another fence pair occurs at or after the first fence, then a fence
occurs in the text following the first fence marker. -/
theorem fence_after_first {d v w rest : Str}
    (h : ticks ++ rest = d ++ ticks ++ (v ++ ticks ++ w)) :
    ∃ a b : Str, rest = a ++ ticks ++ b := by
  have h' : ticks ++ rest = d ++ (ticks ++ (v ++ ticks ++ w)) := by
    rw [h]; simp
  rcases List.append_eq_append_iff.mp h' with ⟨e, he, hre⟩ | ⟨e, he, hre⟩
  · -- d = ticks ++ e, rest = e ++ (ticks ++ (v ++ ticks ++ w))
    exact ⟨e, v ++ ticks ++ w, by rw [hre]; simp⟩
  · -- ticks = d ++ e, ticks ++ (v ++ ticks ++ w) = e ++ rest
    rcases List.append_eq_append_iff.mp hre.symm with ⟨f, hf, hrf⟩ | ⟨f, hf, hrf⟩
    · -- ticks = e ++ f, rest = f ++ (v ++ ticks ++ w)
      exact ⟨f ++ v, w, by rw [hrf]; simp⟩
    · -- e = ticks ++ f, v ++ ticks ++ w = f ++ rest
      have hlen := congrArg List.length he
      rw [hf] at hlen
      simp only [List.length_append] at hlen
      have hf0 : f = [] := List.length_eq_zero.mp (by omega)
      rw [hf0, List.nil_append] at hrf
      exact ⟨v, w, hrf.symm⟩

/-- After the opening fence, a backtick-free prefix (tag and optional
newline) is consumed; if no fence occurs in what remains, no fence occurs
anywhere after the opening fence. -/
theorem no_fence_in_rest {pre₀ r2 rest : Str} (hhd : '`' ∉ pre₀)
    (hsplit : rest = pre₀ ++ r2) (hr2 : ¬ ticks <:+: r2) :
    ¬ ∃ a b : Str, rest = a ++ ticks ++ b := by
  rintro ⟨a, b, hab⟩
  rw [hsplit] at hab
  have hab' : pre₀ ++ r2 = a ++ (ticks ++ b) := by
    rw [hab]; simp
  rcases List.append_eq_append_iff.mp hab' with ⟨e, he, hre⟩ | ⟨e, he, hre⟩
  · -- a = pre₀ ++ e, r2 = e ++ (ticks ++ b)
    exact hr2 ⟨e, b, by rw [hre]; simp⟩
  · -- pre₀ = a ++ e, ticks ++ b = e ++ r2
    rcases e with _ | ⟨c, e'⟩
    · rw [List.nil_append] at hre
      exact hr2 ⟨[], b, by rw [← hre]; simp⟩
    · have hc : c = '`' := by
        have hh := congrArg List.head? hre
        rw [show ticks ++ b = '`' :: (chars "``" ++ b) from rfl, List.head?_cons,
          List.cons_append, List.head?_cons, Option.some_inj] at hh
        exact hh.symm
      apply hhd
      rw [he, hc]
      exact List.mem_append_right a (List.mem_cons_self '`' e')

/-- Complete case analysis of `removeMarkdownCodeBlocks`: either the text
has no fence and is returned unchanged; or it has an opening fence with no
closing fence after the consumed tag (returned unchanged, and the opening
fence is the first one); or a block is unwrapped to its inner content. -/
theorem rmb_spec (tags : List Str) (s : Str) :
    (removeMarkdownCodeBlocks tags s = s ∧ ¬ ticks <:+: s) ∨
    (removeMarkdownCodeBlocks tags s = s ∧
      ∃ pre tg nlp r2 : Str,
        s = pre ++ ticks ++ tg ++ nlp ++ r2 ∧
        (tg = [] ∨ tg ∈ tags) ∧ (nlp = [] ∨ nlp = ['\n']) ∧
        ¬ ticks <:+: r2 ∧
        (∀ u v : Str, s = u ++ ticks ++ v → pre <+: u)) ∨
    (∃ pre mid inner after : Str,
      removeMarkdownCodeBlocks tags s = inner ∧
      s = pre ++ ticks ++ mid ++ inner ++ ticks ++ after ∧
      ¬ ticks <:+: inner) := by
  rcases h1 : splitFirst ticks s with _ | ⟨pre, rest⟩
  · left
    exact ⟨by rw [removeMarkdownCodeBlocks, h1], splitFirst_none h1⟩
  · have hs := splitFirst_eq h1
    obtain ⟨hct, htg⟩ := consumeTag_eq tags rest
    have hrmb : removeMarkdownCodeBlocks tags s =
        (match splitFirst ticks
            (if (consumeTag tags rest).2.head? = some '\n'
             then (consumeTag tags rest).2.tail
             else (consumeTag tags rest).2) with
         | none => s
         | some (inner, _) => inner) := by
      rw [removeMarkdownCodeBlocks, h1]
    generalize hTG : (consumeTag tags rest).1 = tg at hct htg
    generalize hR1 : (consumeTag tags rest).2 = r1 at hct hrmb
    have hnl : ∃ nlp r2 : Str, r1 = nlp ++ r2 ∧ (nlp = [] ∨ nlp = ['\n']) ∧
        (if r1.head? = some '\n' then r1.tail else r1) = r2 := by
      rcases r1 with _ | ⟨c, r1'⟩
      · exact ⟨[], [], rfl, Or.inl rfl, rfl⟩
      · by_cases hc : c = '\n'
        · subst hc
          exact ⟨['\n'], r1', rfl, Or.inr rfl, by simp⟩
        · exact ⟨[], c :: r1', rfl, Or.inl rfl, by rw [if_neg (by simp [hc])]⟩
    obtain ⟨nlp, r2, hr1eq, hnlp, hif⟩ := hnl
    rw [hif] at hrmb
    rcases h2 : splitFirst ticks r2 with _ | ⟨inner, after⟩
    · rw [h2] at hrmb
      have hrmb' : removeMarkdownCodeBlocks tags s = s := hrmb
      right; left
      refine ⟨hrmb', pre, tg, nlp, r2, ?_, htg, hnlp, splitFirst_none h2, ?_⟩
      · rw [hs, hct, hr1eq]
        simp
      · intro u v huv
        exact splitFirst_first h1 u v huv
    · rw [h2] at hrmb
      have hrmb' : removeMarkdownCodeBlocks tags s = inner := hrmb
      right; right
      have hr2 := splitFirst_eq h2
      refine ⟨pre, tg ++ nlp, inner, after, hrmb', ?_, splitFirst_pre_free h2 (by decide)⟩
      rw [hs, hct, hr1eq, hr2]
      simp

theorem removeMarkdownCodeBlocks_sub (tags : List Str) (s : Str) :
    removeMarkdownCodeBlocks tags s <:+: s := by
  rcases rmb_spec tags s with ⟨heq, _⟩ | ⟨heq, _⟩ | ⟨pre, mid, inner, after, heq, hdec, _⟩
  · rw [heq]
  · rw [heq]
  · rw [heq, hdec]
    exact ⟨pre ++ ticks ++ mid, ticks ++ after, by simp⟩

theorem rmb_noTwoFences {tags : List Str} (htags : ∀ t ∈ tags, '`' ∉ t) (s : Str) :
    NoTwoFences (removeMarkdownCodeBlocks tags s) := by
  rcases rmb_spec tags s with ⟨heq, hni⟩ |
    ⟨heq, pre, tg, nlp, r2, hsEq, htg, hnlp, hr2, hfirst⟩ |
    ⟨pre, mid, inner, after, heq, _, hni⟩
  · rw [heq]
    exact noTwoFences_of_no_fence hni
  · rw [heq]
    rintro ⟨u, v, w, huvw⟩
    obtain ⟨d, hd⟩ := hfirst u (v ++ ticks ++ w) (by rw [huvw]; simp)
    have e0 : pre ++ ticks ++ tg ++ nlp ++ r2 = pre ++ d ++ ticks ++ v ++ ticks ++ w := by
      rw [← hsEq, huvw, hd]
    have e1 : ticks ++ (tg ++ nlp ++ r2) = d ++ ticks ++ (v ++ ticks ++ w) :=
      List.append_cancel_left (by simp only [← List.append_assoc]; exact e0)
    obtain ⟨a, b, hab⟩ := fence_after_first e1
    have hhd : '`' ∉ tg ++ nlp := by
      intro hmem
      rcases List.mem_append.mp hmem with hm | hm
      · rcases htg with rfl | htg'
        · simp at hm
        · exact htags tg htg' hm
      · rcases hnlp with rfl | rfl
        · simp at hm
        · simp at hm
    exact no_fence_in_rest hhd (by simp) hr2 ⟨a, b, hab⟩
  · rw [heq]
    exact noTwoFences_of_no_fence hni

theorem rmb_eq_self_of_noTwoFences {tags : List Str} {s : Str} (h : NoTwoFences s) :
    removeMarkdownCodeBlocks tags s = s := by
  rcases rmb_spec tags s with ⟨heq, _⟩ | ⟨heq, _⟩ | ⟨pre, mid, inner, after, _, hdec, _⟩
  · exact heq
  · exact heq
  · exact absurd ⟨pre, mid ++ inner, after, by rw [hdec]; simp⟩ h

/-! ### Trim and the shape of cleaned output -/

theorem head?_dropWhile_not {p : Char → Bool} :
    ∀ {l : Str} {d : Char}, (l.dropWhile p).head? = some d → p d = false := by
  intro l
  induction l with
  | nil =>
    intro d h
    simp at h
  | cons x t ih =>
    intro d h
    rw [List.dropWhile_cons] at h
    split at h
    · exact ih h
    · rename_i hp
      rw [List.head?_cons, Option.some_inj] at h
      subst h
      simpa using hp

theorem getLast?_trimR_not_ws {s : Str} {d : Char} (h : (trimR s).getLast? = some d) :
    wsChar d = false := by
  rw [trimR, List.getLast?_reverse] at h
  exact head?_dropWhile_not h

theorem lastIs_lf_trim (s : Str) : lastIs '\n' (trim s) = false := by
  rw [lastIs, decide_eq_false_iff_not]
  intro h
  have hws := getLast?_trimR_not_ws (s := trimL s) h
  exact absurd hws (by decide)

theorem ensureTrailingLf_trim (y : Str) : ensureTrailingLf (trim y) = trim y ++ ['\n'] := by
  rw [ensureTrailingLf, lastIs_lf_trim]
  simp

theorem head?_of_pre {l m : Str} (h : l <+: m) (hne : l ≠ []) : m.head? = l.head? := by
  obtain ⟨t, rfl⟩ := h
  rcases l with _ | ⟨x, l'⟩
  · exact absurd rfl hne
  · rfl

theorem trim_append_lf (x : Str) : trim (trim x ++ ['\n']) = trim x := by
  rcases htx : trim x with _ | ⟨d, w'⟩
  · rw [List.nil_append]
    rfl
  · have hd : wsChar d = false := by
      have hpre : trimR (trimL x) <+: trimL x := trimR_pre (trimL x)
      have hne : trimR (trimL x) ≠ [] := by
        rw [show trimR (trimL x) = trim x from rfl, htx]
        simp
      have hh := head?_of_pre hpre hne
      rw [show trimR (trimL x) = trim x from rfl, htx, List.head?_cons] at hh
      rw [trimL] at hh
      exact head?_dropWhile_not hh
    have hlast : ∃ e, (trim x).getLast? = some e ∧ wsChar e = false := by
      rcases hgl : (trim x).getLast? with _ | e
      · exfalso
        have hns := List.getLast?_isSome (l := trim x).mpr (by rw [htx]; simp)
        rw [hgl] at hns
        simp at hns
      · exact ⟨e, rfl,
          getLast?_trimR_not_ws (s := trimL x)
            (by rw [show trimR (trimL x) = trim x from rfl, hgl])⟩
    obtain ⟨e, hgl, hwe⟩ := hlast
    have h1 : trimL (trim x ++ ['\n']) = trim x ++ ['\n'] := by
      rw [htx, List.cons_append, trimL, List.dropWhile_cons, if_neg (by simp [hd])]
    have h2 : trimR (trim x ++ ['\n']) = trim x := by
      have hrev : (trim x ++ ['\n']).reverse = '\n' :: (trim x).reverse := by
        rw [List.reverse_append]
        rfl
      rw [trimR, hrev, List.dropWhile_cons, if_pos (by decide)]
      rcases hxr : (trim x).reverse with _ | ⟨e', rv⟩
      · exfalso
        rw [htx] at hxr
        simp at hxr
      · have he' : e' = e := by
          have hh := List.head?_reverse (trim x)
          rw [hxr, hgl, List.head?_cons, Option.some_inj] at hh
          exact hh
        rw [List.dropWhile_cons, if_neg (by rw [he']; simp [hwe]), ← hxr,
          List.reverse_reverse]
    rw [← htx, trim, h1, h2]

theorem stripWrappingQuotes_sub (s : Str) : stripWrappingQuotes s <:+: s := by
  rw [stripWrappingQuotes]
  split
  · exact (List.dropLast_prefix _).isInfix.trans (List.drop_suffix 1 s).isInfix
  · exact List.infix_refl s

/-! ### The cleaned text: no escaped newline, no carriage return, no fence pair -/

theorem normalizeEol_cr (s : Str) : '\r' ∉ normalizeEol s := cr_not_mem_map _

theorem unescapeEscapes_has2 (s : Str) : has2 '\\' 'n' (unescapeEscapes s) = false := by
  rw [unescapeEscapes]
  split
  · apply repl2_has2_preserve (by decide) (fun _ => rfl)
    apply repl2_has2_preserve (by decide) (by intro h; exact absurd h (by decide))
    apply repl2_has2_preserve (by decide) (by intro h; exact absurd h (by decide))
    apply repl2_has2_preserve (by decide) (by intro h; exact absurd h (by decide))
    exact repl2_has2_self (by decide) (by decide) s
  · rename_i hcond
    simpa using hcond

theorem normalizeEol_has2 {s : Str} (h : has2 '\\' 'n' s = false) :
    has2 '\\' 'n' (normalizeEol s) = false := by
  rw [normalizeEol]
  refine has2_map_preserve ?_ ?_ _
    (repl2_has2_preserve (by decide) (by intro hh; exact absurd hh (by decide)) s h)
  · intro z hz
    by_cases hzr : z = '\r'
    · rw [if_pos hzr] at hz
      exact absurd hz (by decide)
    · rwa [if_neg hzr] at hz
  · intro z hz
    by_cases hzr : z = '\r'
    · rw [if_pos hzr] at hz
      exact absurd hz (by decide)
    · rwa [if_neg hzr] at hz

theorem clean_has2 (tags : List Str) (s : Str) :
    has2 '\\' 'n' (cleanGeneratedCode tags s) = false := by
  rw [cleanGeneratedCode, ensureTrailingLf_trim]
  apply has2_append_lf (by decide)
  apply has2_false_of_sub (trim_sub _)
  apply has2_false_of_sub (removeMarkdownCodeBlocks_sub tags _)
  apply has2_false_of_sub (stripWrappingQuotes_sub _)
  exact normalizeEol_has2 (unescapeEscapes_has2 s)

theorem clean_cr (tags : List Str) (s : Str) : '\r' ∉ cleanGeneratedCode tags s := by
  rw [cleanGeneratedCode, ensureTrailingLf_trim]
  intro hmem
  rcases List.mem_append.mp hmem with hm | hm
  · have h1 := (trim_sub _).subset hm
    have h2 := (removeMarkdownCodeBlocks_sub _ _).subset h1
    have h3 := (stripWrappingQuotes_sub _).subset h2
    exact normalizeEol_cr _ h3
  · simp at hm

theorem clean_noTwoFences {tags : List Str} (htags : ∀ t ∈ tags, '`' ∉ t) (s : Str) :
    NoTwoFences (cleanGeneratedCode tags s) := by
  rw [cleanGeneratedCode, ensureTrailingLf_trim]
  exact noTwoFences_append_lf
    (noTwoFences_of_sub (trim_sub _) (rmb_noTwoFences htags _))

theorem repl2_eq_self_of_not_mem {a b c : Char} :
    ∀ s : Str, a ∉ s → repl2 a b c s = s := by
  apply twoStep
  · intro _
    rfl
  · intro x _
    rfl
  · intro x y t _ ihyt h
    rw [repl2, if_neg ?_]
    · rw [ihyt (fun hm => h (List.mem_cons_of_mem x hm))]
    · intro hxy
      exact h (by rw [hxy.1]; exact List.mem_cons_self _ _)

theorem map_id_of_no_cr :
    ∀ {s : Str}, '\r' ∉ s →
      s.map (fun c => if c = '\r' then '\n' else c) = s := by
  intro s
  induction s with
  | nil =>
    intro _
    rfl
  | cons x t ih =>
    intro h
    rw [List.map_cons,
      if_neg (fun hx => h (by rw [hx]; exact List.mem_cons_self _ _)),
      ih (fun hm => h (List.mem_cons_of_mem x hm))]

theorem trim_getLast_ne_lf (y : Str) : (trim y).getLast? ≠ some '\n' := by
  have h := lastIs_lf_trim y
  rw [lastIs, decide_eq_false_iff_not] at h
  exact h

/-- A string with the four invariants of cleaned output is a fixed point of
the cleaner. -/
theorem clean_fixed {tags : List Str} {c : Str}
    (hbsn : has2 '\\' 'n' c = false) (hcr : '\r' ∉ c) (hfen : NoTwoFences c)
    (hshape : ∃ y, c = trim y ++ ['\n']) :
    cleanGeneratedCode tags c = c := by
  obtain ⟨y, rfl⟩ := hshape
  rw [cleanGeneratedCode]
  rw [show unescapeEscapes (trim y ++ ['\n']) = trim y ++ ['\n'] from by
    rw [unescapeEscapes, if_neg (by simp [hbsn])]]
  rw [show normalizeEol (trim y ++ ['\n']) = trim y ++ ['\n'] from by
    rw [normalizeEol, repl2_eq_self_of_not_mem _ hcr, map_id_of_no_cr hcr]]
  rw [show stripWrappingQuotes (trim y ++ ['\n']) = trim y ++ ['\n'] from by
    rw [stripWrappingQuotes, if_neg ?_]
    have hq1 : lastIs '"' (trim y ++ ['\n']) = false := by
      rw [lastIs, List.getLast?_concat]
      decide
    have hq2 : lastIs '\'' (trim y ++ ['\n']) = false := by
      rw [lastIs, List.getLast?_concat]
      decide
    simp [hq1, hq2]]
  rw [rmb_eq_self_of_noTwoFences hfen, trim_append_lf, ensureTrailingLf_trim]

/-! ### Claim C3 -/

/-- C3: for every input string, both cleaners produce output that ends with
exactly one trailing line-feed (the last character is a line-feed and the
character before it, if any, is not) and contains no carriage return. -/
theorem c3_clean_trailing_newline : ∀ s : Str,
    ((∃ t, BackendBuilder.cleanGeneratedCode s = t ++ ['\n'] ∧ t.getLast? ≠ some '\n') ∧
      '\r' ∉ BackendBuilder.cleanGeneratedCode s) ∧
    ((∃ t, FrontendBuilder.cleanGeneratedCode s = t ++ ['\n'] ∧ t.getLast? ≠ some '\n') ∧
      '\r' ∉ FrontendBuilder.cleanGeneratedCode s) := by
  intro s
  refine ⟨⟨⟨trim (removeMarkdownCodeBlocks backendFenceTags
      (stripWrappingQuotes (normalizeEol (unescapeEscapes s)))), ?_,
      trim_getLast_ne_lf _⟩, clean_cr backendFenceTags s⟩,
    ⟨⟨trim (removeMarkdownCodeBlocks frontendFenceTags
      (stripWrappingQuotes (normalizeEol (unescapeEscapes s)))), ?_,
      trim_getLast_ne_lf _⟩, clean_cr frontendFenceTags s⟩⟩
  · rw [BackendBuilder.cleanGeneratedCode, cleanGeneratedCode, ensureTrailingLf_trim]
  · rw [FrontendBuilder.cleanGeneratedCode, cleanGeneratedCode, ensureTrailingLf_trim]

/-! ### Claim C4 -/

/-- C4: both cleaners are idempotent — applying `cleanGeneratedCode` to its
own output returns it unchanged. -/
theorem c4_clean_idempotent : ∀ s : Str,
    BackendBuilder.cleanGeneratedCode (BackendBuilder.cleanGeneratedCode s) =
      BackendBuilder.cleanGeneratedCode s ∧
    FrontendBuilder.cleanGeneratedCode (FrontendBuilder.cleanGeneratedCode s) =
      FrontendBuilder.cleanGeneratedCode s := by
  intro s
  constructor
  · exact clean_fixed (clean_has2 backendFenceTags s)
      (clean_cr backendFenceTags s) (clean_noTwoFences (by decide) s)
      ⟨removeMarkdownCodeBlocks backendFenceTags
        (stripWrappingQuotes (normalizeEol (unescapeEscapes s))),
       by rw [BackendBuilder.cleanGeneratedCode, cleanGeneratedCode, ensureTrailingLf_trim]⟩
  · exact clean_fixed (clean_has2 frontendFenceTags s)
      (clean_cr frontendFenceTags s) (clean_noTwoFences (by decide) s)
      ⟨removeMarkdownCodeBlocks frontendFenceTags
        (stripWrappingQuotes (normalizeEol (unescapeEscapes s))),
       by rw [FrontendBuilder.cleanGeneratedCode, cleanGeneratedCode, ensureTrailingLf_trim]⟩

/-! ### Claim C5 -/

/-- C5: both section extractors always return at least one entry, and on
text with zero recognized tagged fences they return exactly the single
sentinel entry `main` holding the input verbatim. -/
theorem c5_sections_nonempty : ∀ content : Str,
    (1 ≤ (BackendBuilder.extractMarkdownSections content).length ∧
      (scanBlocks BackendBuilder.sectionTags content = [] →
        BackendBuilder.extractMarkdownSections content = [(chars "main", content)])) ∧
    (1 ≤ (FrontendBuilder.extractMarkdownSections content).length ∧
      (scanBlocks FrontendBuilder.sectionTags content = [] →
        FrontendBuilder.extractMarkdownSections content = [(chars "main", content)])) := by
  intro content
  refine ⟨⟨?_, ?_⟩, ?_, ?_⟩
  · rw [BackendBuilder.extractMarkdownSections]
    split
    · simp
    · rename_i h
      omega
  · intro h
    simp [BackendBuilder.extractMarkdownSections, h]
  · rw [FrontendBuilder.extractMarkdownSections]
    split
    · simp
    · rename_i h
      omega
  · intro h
    simp [FrontendBuilder.extractMarkdownSections, h]

/-- C5 witness at a concrete fence-free text. -/
theorem c5_witness :
    scanBlocks BackendBuilder.sectionTags (chars "hello") = [] ∧
    BackendBuilder.extractMarkdownSections (chars "hello") =
      [(chars "main", chars "hello")] ∧
    scanBlocks FrontendBuilder.sectionTags (chars "hello") = [] ∧
    FrontendBuilder.extractMarkdownSections (chars "hello") =
      [(chars "main", chars "hello")] :=
  ⟨by decide, (c5_sections_nonempty (chars "hello")).1.2 (by decide),
   by decide, (c5_sections_nonempty (chars "hello")).2.2 (by decide)⟩

/-! ### Claims C9 and C10: extraction after cleaning -/

theorem readBlock_some {tags : List Str} {rest block after : Str}
    (h : readBlock tags rest = some (block, after)) :
    ∃ tg inner : Str, tg ∈ tags ∧ rest = tg ++ '\n' :: (inner ++ ticks ++ after) ∧
      block = ticks ++ tg ++ '\n' :: (inner ++ ticks) := by
  rw [readBlock] at h
  split at h
  · exact absurd h (by simp)
  · rename_i tg hf
    split at h
    · rename_i r2 hdrop
      split at h
      · rename_i inner after' hsp
        rw [Option.some_inj, Prod.mk.injEq] at h
        have htg : tg.isPrefixOf rest := by simpa using List.find?_some hf
        rw [List.isPrefixOf_iff_prefix] at htg
        obtain ⟨u, hu⟩ := htg
        have hu' : u = '\n' :: r2 := by
          rw [← hdrop, ← hu, List.drop_left]
        have hr2 := splitFirst_eq hsp
        refine ⟨tg, inner, List.mem_of_find?_eq_some hf, ?_, ?_⟩
        · rw [← hu, hu', hr2, h.2]
        · rw [← h.1]
      · exact absurd h (by simp)
    · exact absurd h (by simp)

theorem scanBlocksF_nil_of_noTwoFences {tags : List Str} :
    ∀ (fuel : Nat) (s : Str), NoTwoFences s → scanBlocksF tags fuel s = [] := by
  intro fuel
  induction fuel with
  | zero =>
    intro s _
    rfl
  | succ fuel ih =>
    intro s h
    rcases h1 : splitFirst ticks s with _ | ⟨pre, rest⟩
    · rw [scanBlocksF, h1]
    · have hs := splitFirst_eq h1
      have hstep : scanBlocksF tags (fuel + 1) s =
          (match readBlock tags rest with
           | some (block, after) => block :: scanBlocksF tags fuel after
           | none => scanBlocksF tags fuel ('`' :: '`' :: rest)) := by
        rw [scanBlocksF, h1]
      rcases h2 : readBlock tags rest with _ | ⟨block, after⟩ <;> rw [h2] at hstep
      · have hstep' : scanBlocksF tags (fuel + 1) s =
            scanBlocksF tags fuel ('`' :: '`' :: rest) := hstep
        rw [hstep']
        apply ih
        apply noTwoFences_of_sub ?_ h
        refine ⟨pre ++ ['`'], [], ?_⟩
        rw [hs, show ticks = '`' :: '`' :: '`' :: ([] : Str) from rfl]
        simp
      · exfalso
        obtain ⟨tg, inner, _, hrest, _⟩ := readBlock_some h2
        apply h
        refine ⟨pre, tg ++ '\n' :: inner, after, ?_⟩
        rw [hs, hrest]
        simp

theorem scanBlocks_nil_of_noTwoFences {tags : List Str} {s : Str} (h : NoTwoFences s) :
    scanBlocks tags s = [] :=
  scanBlocksF_nil_of_noTwoFences _ s h


/-- The cleaner unwraps or destroys every fence pair, so section extraction
on cleaned backend text always degrades to the sentinel entry. -/
theorem backend_sections_clean (content : Str) :
    BackendBuilder.extractMarkdownSections (BackendBuilder.cleanGeneratedCode content) =
      [(chars "main", BackendBuilder.cleanGeneratedCode content)] := by
  have h : scanBlocks BackendBuilder.sectionTags
      (BackendBuilder.cleanGeneratedCode content) = [] :=
    scanBlocks_nil_of_noTwoFences
      (clean_noTwoFences (by decide) content :
        NoTwoFences (cleanGeneratedCode backendFenceTags content))
  simp [BackendBuilder.extractMarkdownSections, h]

/-- Frontend counterpart of `backend_sections_clean`. -/
theorem frontend_sections_clean (content : Str) :
    FrontendBuilder.extractMarkdownSections (FrontendBuilder.cleanGeneratedCode content) =
      [(chars "main", FrontendBuilder.cleanGeneratedCode content)] := by
  have h : scanBlocks FrontendBuilder.sectionTags
      (FrontendBuilder.cleanGeneratedCode content) = [] :=
    scanBlocks_nil_of_noTwoFences
      (clean_noTwoFences (by decide) content :
        NoTwoFences (cleanGeneratedCode frontendFenceTags content))
  simp [FrontendBuilder.extractMarkdownSections, h]

/-- On every input the backend extraction yields exactly the default
primary file holding the whole cleaned text. -/
theorem extractFilesFromResponse_eq (content : Str) (backend : Backend) :
    BackendBuilder.extractFilesFromResponse content backend =
      ⟨(BackendBuilder.defaultMainName backend, BackendBuilder.cleanGeneratedCode content),
        none, []⟩ := by
  rw [BackendBuilder.extractFilesFromResponse, backend_sections_clean]
  simp

/-- On every input the frontend extraction yields exactly the default
primary file holding the whole cleaned text. -/
theorem extractFrontendFilesFromResponse_eq (content : Str) (frontend : Frontend) :
    FrontendBuilder.extractFrontendFilesFromResponse content frontend =
      ⟨(FrontendBuilder.defaultAppName frontend, FrontendBuilder.cleanGeneratedCode content),
        none, []⟩ := by
  rw [FrontendBuilder.extractFrontendFilesFromResponse, frontend_sections_clean]
  simp

/-- Target filenames of a backend generated file set: primary, candid,
additional, in order. -/
def backendFilenames (g : GeneratedFiles) : List Str :=
  g.mainFile.1 :: ((g.candidFile.map Prod.fst).toList ++ g.additionalFiles.map Prod.fst)

/-- Target filenames of a frontend generated file set: primary, styles,
additional, in order. -/
def frontendFilenames (g : GeneratedFrontendFiles) : List Str :=
  g.appFile.1 :: ((g.stylesFile.map Prod.fst).toList ++ g.additionalFiles.map Prod.fst)

/-! ### Claim C9 -/

/-- C9: for every content and stack choice, the extracted file set always
contains its primary entry, and no two of its entries — primary,
interface/style, or additional — share a target filename. -/
theorem c9_no_duplicate_filenames :
    ∀ (content : Str) (backend : Backend) (frontend : Frontend),
    ((BackendBuilder.extractFilesFromResponse content backend).mainFile.1 ∈
        backendFilenames (BackendBuilder.extractFilesFromResponse content backend) ∧
      (backendFilenames (BackendBuilder.extractFilesFromResponse content backend)).Nodup) ∧
    ((FrontendBuilder.extractFrontendFilesFromResponse content frontend).appFile.1 ∈
        frontendFilenames (FrontendBuilder.extractFrontendFilesFromResponse content frontend) ∧
      (frontendFilenames
        (FrontendBuilder.extractFrontendFilesFromResponse content frontend)).Nodup) := by
  intro content backend frontend
  rw [extractFilesFromResponse_eq, extractFrontendFilesFromResponse_eq]
  exact ⟨⟨by simp [backendFilenames], by simp [backendFilenames]⟩,
    ⟨by simp [frontendFilenames], by simp [frontendFilenames]⟩⟩

/-! ### Claim C10 -/

/-- C10: whenever section extraction of the cleaned text returns at most
one entry, extraction places the entire cleaned text into the
default-named primary file (`main.mo` / `lib.rs` for backends, `page.tsx` /
`App.jsx` for frontends) with no interface/style file and no additional
files, ignoring any extracted section's per-tag filename. -/
theorem c10_single_section_default :
    ∀ (content : Str) (backend : Backend) (frontend : Frontend),
    ((BackendBuilder.extractMarkdownSections
        (BackendBuilder.cleanGeneratedCode content)).length ≤ 1 →
      BackendBuilder.extractFilesFromResponse content backend =
        ⟨(BackendBuilder.defaultMainName backend,
          BackendBuilder.cleanGeneratedCode content), none, []⟩) ∧
    ((FrontendBuilder.extractMarkdownSections
        (FrontendBuilder.cleanGeneratedCode content)).length ≤ 1 →
      FrontendBuilder.extractFrontendFilesFromResponse content frontend =
        ⟨(FrontendBuilder.defaultAppName frontend,
          FrontendBuilder.cleanGeneratedCode content), none, []⟩) := by
  intro content backend frontend
  constructor
  · intro h
    rw [BackendBuilder.extractFilesFromResponse, if_neg (by omega)]
  · intro h
    rw [FrontendBuilder.extractFrontendFilesFromResponse, if_neg (by omega)]

/-- C10 witness at a concrete fence-free input. -/
theorem c10_witness :
    (BackendBuilder.extractMarkdownSections
      (BackendBuilder.cleanGeneratedCode (chars "hello"))).length ≤ 1 ∧
    BackendBuilder.extractFilesFromResponse (chars "hello") .rust =
      ⟨(BackendBuilder.defaultMainName .rust,
        BackendBuilder.cleanGeneratedCode (chars "hello")), none, []⟩ ∧
    (FrontendBuilder.extractMarkdownSections
      (FrontendBuilder.cleanGeneratedCode (chars "hello"))).length ≤ 1 ∧
    FrontendBuilder.extractFrontendFilesFromResponse (chars "hello") .react =
      ⟨(FrontendBuilder.defaultAppName .react,
        FrontendBuilder.cleanGeneratedCode (chars "hello")), none, []⟩ :=
  ⟨by decide, (c10_single_section_default (chars "hello") .rust .react).1 (by decide),
   by decide, (c10_single_section_default (chars "hello") .rust .react).2 (by decide)⟩

end Icd
